import Mathlib

/-!
Verification of the rustex regular-expression engine (parser, executor,
substitution templates) against its natural-language specification.

The definitions below are a shallow embedding of the Rust sources:

* `src/parser/mod.rs` — the pattern parser (`ParserImpl::parse`,
  `parse_word`, `parse_repetition_range_vals`, `parse_group`,
  `decorate_node_option_for_last_char_modifiers`, …);
* `src/executor/mod.rs` — the backtracking executor (`Executor::exec`,
  `ExecutorImpl::exec`, `ExecutorImpl::find_word`);
* `src/replace/mod.rs` — the `$N` substitution templates (`ReplaceSpec`).

Modelling conventions:

* Rust `String`/`&str` values are `List Char`; byte-level operations
  (the executor's cursor is a byte offset) work on the UTF-8 encoding
  `strBytes`.
* Rust panics (slice not on a char boundary, integer underflow,
  `Option::unwrap` on `None`, `expect` failures) are modelled by an
  explicit `panicked` outcome.
* The Rust executor and parser can diverge on some inputs; both are
  therefore written fuel-indexed, with an `outOfFuel` outcome standing
  for a computation that has not finished within the given fuel.
* `indexmap::IndexMap`/`IndexSet` are association lists that keep
  first-insertion order (`gInsert`, `setInsert`).
-/

namespace Rustex

/-- UTF-8 encoding of one character (`str` bytes in Rust). -/
def utf8Bytes (c : Char) : List Nat :=
  let n := c.toNat
  if n < 128 then [n]
  else if n < 2048 then [192 + n / 64, 128 + n % 64]
  else if n < 65536 then [224 + n / 4096, 128 + (n / 64) % 64, 128 + n % 64]
  else [240 + n / 262144, 128 + (n / 4096) % 64, 128 + (n / 64) % 64, 128 + n % 64]

/-- The UTF-8 bytes of a string, as Rust's `str` stores them. -/
def strBytes : List Char → List Nat
  | [] => []
  | c :: cs => utf8Bytes c ++ strBytes cs

/-- `i` is a character boundary of the UTF-8 encoding of `s`
(Rust `str::is_char_boundary`); slicing a `str` at a non-boundary panics. -/
def isBoundary : List Char → Nat → Bool
  | _, 0 => true
  | [], _ + 1 => false
  | c :: cs, i + 1 =>
    let k := (utf8Bytes c).length
    if i + 1 < k then false else isBoundary cs (i + 1 - k)

/-- `GroupConfig` from `src/parser/mod.rs`. -/
inductive GroupConfig where
  | nonCapturing
  | named (name : List Char)
deriving DecidableEq, Repr

/-- `ParseError` from `src/parser/mod.rs`. -/
inductive ParseError where
  | unexpectedCharErr (ch : Char)
  | unterminatedCharSet
  | emptyCaptureGroup
  | missingCharacterToEscape
  | missingRightSideOfOr
  | badGroupConfig
  | missingRepetitionRangeMin
  | unexpectedRepetitionRangeCh (ch : Char)
  | missingLeftSideOfModifier
  | unexpectedEmptyParseNodeOption
  | parseGraphCycle
  | unexpectedEndOfInput
deriving DecidableEq, Repr

/-- Result of a parser-side computation: success, a `ParseError`, a Rust
panic, or fuel exhaustion (standing for divergence of the Rust loop). -/
inductive PRes (α : Type) where
  | ok (a : α)
  | err (e : ParseError)
  | panicked
  | outOfFuel
deriving DecidableEq, Repr

/-- `NodeVal` from `src/parser/node.rs` (also covering the executor's
runtime-only `GroupEnd`).  A Rust `Node` is a `val` plus a linear `next`
chain; a chain is modelled as a `List RVal`, with `[]` for a null `next`
pointer, so the executor's `append`/`append_option_node` splicing is list
append. -/
inductive RVal where
  | poisoned
  | word (w : List Char)
  | any
  | zeroOrMore (node : List RVal) (greedy : Bool)
  | oneOrMore (node : List RVal) (greedy : Bool)
  | start
  | stop
  | optional (node : List RVal)
  | group (group : List RVal) (cfg : Option GroupConfig)
  | set (set : List Char) (inverted : Bool)
  | or (left : List RVal) (right : List RVal)
  | repetitionRange (min : Nat) (max : Option Nat) (node : List RVal)
  | groupEnd (start : Nat) (cfg : Option GroupConfig)

/-- `ParserImpl::SPECIAL_CHARS`. -/
def SPECIAL_CHARS : List Char :=
  ['(', ')', '{', '}', '[', ']', '|', '\\', '^', '$', '.', '*', '?', '+']

/-- `ParserImpl::is_special_char`. -/
def is_special_char (c : Char) : Bool := SPECIAL_CHARS.contains c

/-- `'0'..='9'` match in `parse_repetition_range_vals`. -/
def isDigitCh (c : Char) : Bool := '0' ≤ c && c ≤ '9'

/-- `ParserImpl::parse_word`: gather a maximal run of non-special
characters (escapes included) into one literal; stops—without
consuming—at any special character other than `\`.  Returns the word and
the remaining input. -/
def parse_word : List Char → List Char → PRes (List Char × List Char)
  | [], acc => .ok (acc, [])
  | c :: cs, acc =>
    if is_special_char c && !(c == '\\') then .ok (acc, c :: cs)
    else if c = '\\' then
      match cs with
      | [] => .err .missingCharacterToEscape
      | e :: cs' =>
        if is_special_char e then parse_word cs' (acc ++ [e])
        else .err (.unexpectedCharErr e)
    else parse_word cs (acc ++ [c])

/-- Digit accumulation in `parse_repetition_range_vals` (`min_str` /
`max_str` building). -/
def pushDigit (acc : Option (List Char)) (c : Char) : Option (List Char) :=
  match acc with
  | none => some [c]
  | some w => some (w ++ [c])

/-- `str::parse::<u32>` on a digit string: the numeric value, or `none`
when the value overflows `u32` (the Rust code then panics through
`expect`). -/
def parseU32 (ds : List Char) : Option Nat :=
  let v := ds.foldl (fun a c => a * 10 + (c.toNat - 48)) 0
  if v < 4294967296 then some v else none

/-- The inner loop of `parse_repetition_range_vals` that reads the `max`
digits after the comma. -/
def rangeMaxLoop : List Char → Option (List Char) → PRes (Option (List Char) × List Char)
  | [], acc => .ok (acc, [])
  | c :: cs, acc =>
    if isDigitCh c then rangeMaxLoop cs (pushDigit acc c)
    else if c = '}' then .ok (acc, cs)
    else .err (.unexpectedRepetitionRangeCh c)

/-- The outer loop of `parse_repetition_range_vals` reading the `min`
digits and dispatching on `}` / `,`. -/
def rangeMinLoop : List Char → Option (List Char) →
    PRes ((Option (List Char) × Option (List Char)) × List Char)
  | [], accMin => .ok ((accMin, none), [])
  | c :: cs, accMin =>
    if isDigitCh c then rangeMinLoop cs (pushDigit accMin c)
    else if c = '}' then .ok ((accMin, none), cs)
    else if c = ',' then
      match rangeMaxLoop cs none with
      | .ok (accMax, rem) => .ok ((accMin, accMax), rem)
      | .err e => .err e
      | .panicked => .panicked
      | .outOfFuel => .outOfFuel
    else .err (.unexpectedRepetitionRangeCh c)

/-- `ParserImpl::parse_repetition_range_vals`: consume the leading `{`
and read `{m}` / `{m,}` / `{m,n}`.  A missing minimum digit run is
`MissingRepetitionRangeMin`; a `u32` overflow of either value is a panic
(the Rust code `expect`s the conversion). -/
def parse_repetition_range_vals (s : List Char) : PRes ((Nat × Option Nat) × List Char) :=
  match rangeMinLoop (s.drop 1) none with
  | .ok ((minStr, maxStr), rem) =>
    match minStr with
    | none => .err .missingRepetitionRangeMin
    | some ds =>
      match parseU32 ds with
      | none => .panicked
      | some mn =>
        match maxStr with
        | none => .ok ((mn, none), rem)
        | some es =>
          match parseU32 es with
          | none => .panicked
          | some mx => .ok ((mn, some mx), rem)
  | .err e => .err e
  | .panicked => .panicked
  | .outOfFuel => .outOfFuel

/-- `ParserImpl::decorate_node_option` /
`decorate_node_option_for_last_char_modifiers`: apply a quantifier
decorator to the chain's last node; when that node is a multi-character
literal, split off its final character into its own single-character
literal and decorate only that (leaving the preceding characters as a
literal before it). -/
def decorate_node_option_for_last_char_modifiers
    (acc : List RVal) (dec : List RVal → RVal) : PRes (List RVal) :=
  match acc.getLast? with
  | none => .err .missingLeftSideOfModifier
  | some last =>
    match last with
    | .word w =>
      if 1 < w.length then
        .ok (acc.dropLast ++ [.word w.dropLast, dec [.word [w.getLastD ' ']]])
      else .ok (acc.dropLast ++ [dec [.word w]])
    | v => .ok (acc.dropLast ++ [dec [v]])

/-- `ParserImpl::chomp_greediness`: a following `?` makes the quantifier
lazy and is consumed. -/
def chomp_greediness (s : List Char) : Bool × List Char :=
  match s with
  | '?' :: rest => (false, rest)
  | _ => (true, s)

/-- The `?<name>` reading loop of `parse_group` (via `next_escaped`):
stops at an unescaped `>` or at end of input. -/
def groupNameLoop : List Char → List Char → PRes (List Char × List Char)
  | [], acc => .ok (acc, [])
  | '\\' :: rest, acc =>
    match rest with
    | [] => .err .missingCharacterToEscape
    | e :: r2 =>
      if is_special_char e then groupNameLoop r2 (acc ++ [e])
      else .err (.unexpectedCharErr e)
  | c :: rest, acc =>
    if c = '>' then .ok (acc, rest) else groupNameLoop rest (acc ++ [c])

/-- The group-config dispatch at the start of `parse_group`
(`?:`, `?<name>`, or no prefix). -/
def groupCfgParse : List Char → PRes (Option GroupConfig × List Char)
  | '?' :: rest =>
    match rest with
    | ':' :: r2 => .ok (some .nonCapturing, r2)
    | '<' :: r2 =>
      match groupNameLoop r2 [] with
      | .ok (name, rem) => .ok (some (.named name), rem)
      | .err e => .err e
      | .panicked => .panicked
      | .outOfFuel => .outOfFuel
    | _ => .err .badGroupConfig
  | s => .ok (none, s)

/-- `IndexSet::insert`: keeps the first occurrence. -/
def setInsert (acc : List Char) (c : Char) : List Char :=
  if acc.contains c then acc else acc ++ [c]

/-- The `[...]` item loop (via `next_escaped`): collect members until an
unescaped `]`; running out of input is `UnterminatedCharSet`. -/
def parseSetItems : List Char → List Char → PRes (List Char × List Char)
  | [], _ => .err .unterminatedCharSet
  | '\\' :: rest, acc =>
    match rest with
    | [] => .err .missingCharacterToEscape
    | e :: r2 =>
      if is_special_char e then parseSetItems r2 (setInsert acc e)
      else .err (.unexpectedCharErr e)
  | c :: rest, acc =>
    if c = ']' then .ok (acc, rest) else parseSetItems rest (setInsert acc c)

/-- `ParserImpl::parse_group`, parameterised by the recursive `parse`
call (the Rust method is mutually recursive with `parse`): consume `(`,
read the optional group config, parse the body up to `)`, reject an
empty body, and consume the closing `)` (or nothing at end of input). -/
def parse_group
    (p : List Char → Option Char → List RVal → PRes (List RVal × List Char))
    (s : List Char) : PRes (RVal × List Char) :=
  match groupCfgParse (s.drop 1) with
  | .ok (cfg, s2) =>
    match p s2 (some ')') [] with
    | .ok (chain, rem) =>
      match chain with
      | [] => .err .emptyCaptureGroup
      | _ => .ok (.group chain cfg, rem.drop 1)
    | .err e => .err e
    | .panicked => .panicked
    | .outOfFuel => .outOfFuel
  | .err e => .err e
  | .panicked => .panicked
  | .outOfFuel => .outOfFuel

/-- The `until` comparison at the top of `ParserImpl::parse`'s loop. -/
def untilMatches (u : Option Char) (c : Char) : Bool :=
  match u with
  | some x => c == x
  | none => false

/-- `ParserImpl::parse`: the main parser loop.  `acc` is the sibling
chain built so far (Rust's `head`/`prev`).  One unit of fuel is spent
per loop iteration; the Rust loop genuinely diverges on a stray
`)`/`}`/`]` (where `parse_word` returns an empty literal without
consuming anything), which the model reports as `outOfFuel`.  A leading
`|` with nothing before it panics (`left.unwrap()` on `None`). -/
def parseLoop : Nat → List Char → Option Char → List RVal → PRes (List RVal × List Char)
  | 0, _, _, _ => .outOfFuel
  | fuel + 1, s, until_, acc =>
    match s with
    | [] => .ok (acc, [])
    | ch :: rest =>
      if untilMatches until_ ch then .ok (acc, ch :: rest)
      else if ch = '{' then
        match parse_repetition_range_vals (ch :: rest) with
        | .ok ((mn, mx), rem) =>
          match decorate_node_option_for_last_char_modifiers acc
              (fun body => .repetitionRange mn mx body) with
          | .ok acc' => parseLoop fuel rem until_ acc'
          | .err e => .err e
          | .panicked => .panicked
          | .outOfFuel => .outOfFuel
        | .err e => .err e
        | .panicked => .panicked
        | .outOfFuel => .outOfFuel
      else if ch = '|' then
        match parseLoop fuel rest (some ')') [] with
        | .ok (right, rem) =>
          match right with
          | [] => .err .missingRightSideOfOr
          | _ =>
            match acc with
            | [] => .panicked
            | _ => parseLoop fuel rem until_ [.or acc right]
        | .err e => .err e
        | .panicked => .panicked
        | .outOfFuel => .outOfFuel
      else if ch = '[' then
        let (inverted, s2) :=
          match rest with
          | '^' :: r2 => (true, r2)
          | _ => (false, rest)
        match parseSetItems s2 [] with
        | .ok (items, rem) => parseLoop fuel rem until_ (acc ++ [.set items inverted])
        | .err e => .err e
        | .panicked => .panicked
        | .outOfFuel => .outOfFuel
      else if ch = '.' then parseLoop fuel rest until_ (acc ++ [.any])
      else if ch = '*' then
        let (greedy, rem) := chomp_greediness rest
        match decorate_node_option_for_last_char_modifiers acc
            (fun body => .zeroOrMore body greedy) with
        | .ok acc' => parseLoop fuel rem until_ acc'
        | .err e => .err e
        | .panicked => .panicked
        | .outOfFuel => .outOfFuel
      else if ch = '+' then
        let (greedy, rem) := chomp_greediness rest
        match decorate_node_option_for_last_char_modifiers acc
            (fun body => .oneOrMore body greedy) with
        | .ok acc' => parseLoop fuel rem until_ acc'
        | .err e => .err e
        | .panicked => .panicked
        | .outOfFuel => .outOfFuel
      else if ch = '?' then
        match decorate_node_option_for_last_char_modifiers acc
            (fun body => .optional body) with
        | .ok acc' => parseLoop fuel rest until_ acc'
        | .err e => .err e
        | .panicked => .panicked
        | .outOfFuel => .outOfFuel
      else if ch = '^' then parseLoop fuel rest until_ (acc ++ [.start])
      else if ch = '$' then parseLoop fuel rest until_ (acc ++ [.stop])
      else if ch = '(' then
        match parse_group (fun a b c => parseLoop fuel a b c) (ch :: rest) with
        | .ok (g, rem) => parseLoop fuel rem until_ (acc ++ [g])
        | .err e => .err e
        | .panicked => .panicked
        | .outOfFuel => .outOfFuel
      else
        match parse_word (ch :: rest) [] with
        | .ok (w, rem) => parseLoop fuel rem until_ (acc ++ [.word w])
        | .err e => .err e
        | .panicked => .panicked
        | .outOfFuel => .outOfFuel

/-- `Parser::parse_str`: run the main loop on the whole pattern.  The
fuel `2 * length + 8` is enough for every terminating run of the Rust
loop (each iteration but the last consumes at least one character, and
each nested group/alternation sub-parse is preceded by consuming one);
runs that exhaust it correspond to divergence of the Rust parser. -/
def parse_str (s : List Char) : PRes (List RVal) :=
  match parseLoop (2 * s.length + 8) s none [] with
  | .ok (chain, _) => .ok chain
  | .err e => .err e
  | .panicked => .panicked
  | .outOfFuel => .outOfFuel

/-- `ExecError` from `src/executor/mod.rs`. -/
inductive ExecError where
  | emptyParseResult
  | poisonedNode
deriving DecidableEq, Repr

/-- Result of an executor-side computation: success, an `ExecError`, a
Rust panic, or fuel exhaustion (standing for a diverging search). -/
inductive Outcome (α : Type) where
  | ok (a : α)
  | err (e : ExecError)
  | panicked
  | outOfFuel
deriving DecidableEq, Repr

/-- `ExecResult` from `src/executor/mod.rs`: match start, inclusive
match end and the named-capture map (an insertion-ordered association
list, Rust `indexmap::IndexMap`). -/
structure ExecResult where
  start : Nat
  stop : Nat
  groups : List (List Char × Nat × Nat)
deriving DecidableEq, Repr

/-- `IndexMap::insert`: overwrite in place if the key exists, else
append. -/
def gInsert (m : List (List Char × Nat × Nat)) (k : List Char) (v : Nat × Nat) :
    List (List Char × Nat × Nat) :=
  if m.any (fun p => p.1 = k) then
    m.map (fun p => if p.1 = k then (k, v) else p)
  else m ++ [(k, v)]

/-- `IndexMap::get`. -/
def gLookup : List (List Char × Nat × Nat) → List Char → Option (Nat × Nat)
  | [], _ => none
  | (k', v) :: rest, k => if k' = k then some v else gLookup rest k

/-- `IndexMap::extend` (used by `ExecResult::merge_groups`). -/
def gExtend (m other : List (List Char × Nat × Nat)) : List (List Char × Nat × Nat) :=
  other.foldl (fun acc p => gInsert acc p.1 p.2) m

/-- `ExecResult::new(start)`: `end` starts at 0 and is only set when a
state completes. -/
def ExecResult.new (start : Nat) : ExecResult := ⟨start, 0, []⟩

/-- `ExecResult::map_options`: keep the first result's offsets and
extend its groups with the second's (both `Some`); otherwise whichever
is `Some`. -/
def map_options : Option ExecResult → Option ExecResult → Option ExecResult
  | none, none => none
  | none, some s => some s
  | some d, none => some d
  | some d, some s => some { d with groups := gExtend d.groups s.groups }

/-- `res.or(Some(ExecResult::new(cur)))`: set the match start if unset. -/
def orNew (res : Option ExecResult) (cur : Nat) : Option ExecResult :=
  match res with
  | some r => some r
  | none => some (ExecResult.new cur)

/-- `ExecutorState` from `src/executor/mod.rs`: a pending frontier
entry (partial result, program chain, byte cursor). -/
structure ExecutorState where
  res : Option ExecResult
  node : List RVal
  cur : Nat

/-- The loop of `ExecutorImpl::find_word`, with the iteration count
made explicit (`steps` is kept equal to `n + 1 - cur`, so the `0` case
is only reached with `cur > n`, where the length guard returns `None`
anyway).  Each probe slices `input[cur..cur+len]`, which panics when
either end is not a character boundary; the returned pair
`(cur, cur+len-1)` underflows (panics) when both are zero. -/
def find_word_go (inp : List Char) (wordB : List Nat) (canMove : Bool) :
    Nat → Nat → Outcome (Option (Nat × Nat))
  | _, 0 => .ok none
  | cur, steps + 1 =>
    let n := (strBytes inp).length
    if cur + wordB.length > n then .ok none
    else if !(isBoundary inp cur && isBoundary inp (cur + wordB.length)) then .panicked
    else if ((strBytes inp).drop cur).take wordB.length = wordB then
      if cur + wordB.length = 0 then .panicked
      else .ok (some (cur, cur + wordB.length - 1))
    else if !canMove then .ok none
    else find_word_go inp wordB canMove (cur + 1) steps

/-- `ExecutorImpl::find_word`: scan for `word`'s bytes starting at byte
offset `cur`, sliding the window only when `can_move_window`. -/
def find_word (inp : List Char) (wordB : List Nat) (cur : Nat) (canMove : Bool) :
    Outcome (Option (Nat × Nat)) :=
  find_word_go inp wordB canMove cur ((strBytes inp).length + 1 - cur)

/-- The `{min}` loop of the `RepetitionRange` case of
`ExecutorImpl::exec`: run the body `count` times, updating the partial
result via `map_options` and the cursor to the body match's `end + 1`;
a failed iteration makes the whole node return `Ok(None)` (any frontier
pushes performed by the body remain). -/
def repMin
    (bodyExec : Option ExecResult → Nat → List ExecutorState →
      Outcome ((Option ExecResult × Bool) × List ExecutorState)) :
    Nat → Option ExecResult → Nat → List ExecutorState →
      Outcome (Option (Option ExecResult × Nat) × List ExecutorState)
  | 0, res, cur, fr => .ok (some (res, cur), fr)
  | k + 1, res, cur, fr =>
    match bodyExec res cur fr with
    | .ok ((none, _), fr1) => .ok (none, fr1)
    | .ok ((some nr, _), fr1) =>
      repMin bodyExec k (map_options res (some nr)) (nr.stop + 1) fr1
    | .err e => .err e
    | .panicked => .panicked
    | .outOfFuel => .outOfFuel

/-- `ExecutorImpl::exec`: execute the program chain `prog` from byte
cursor `cur` with partial result `res`, threading the frontier (the
Rust method mutates `self.frontier`).  The returned `Bool` is ghost
instrumentation: `true` iff the returned result arose from a completed
state (program pointer exhausted with a partial result set, `end`
finalised to `cur - 1`), `false` when a node (Optional/ZeroOrMore)
returned the partial result directly.  One unit of fuel is spent per
recursive call. -/
def execNode : Nat → List Char → Option ExecResult → List RVal → Nat →
    List ExecutorState → Outcome ((Option ExecResult × Bool) × List ExecutorState)
  | 0, _, _, _, _, _ => .outOfFuel
  | fuel + 1, inp, res, prog, cur, frontier =>
    match prog with
    | [] =>
      match res with
      | none => .ok ((none, false), frontier)
      | some r =>
        if cur = 0 then .panicked
        else .ok ((some { r with stop := cur - 1 }, true), frontier)
    | v :: rest =>
      match v with
      | .poisoned => .err .poisonedNode
      | .any =>
        if cur = (strBytes inp).length then .ok ((none, false), frontier)
        else execNode fuel inp (orNew res cur) rest (cur + 1) frontier
      | .start =>
        if cur = 0 then execNode fuel inp (orNew res cur) rest cur frontier
        else .ok ((none, false), frontier)
      | .stop =>
        if cur = (strBytes inp).length then execNode fuel inp (orNew res cur) rest cur frontier
        else .ok ((none, false), frontier)
      | .word w =>
        if (strBytes inp).length ≤ cur then .ok ((none, false), frontier)
        else if !(isBoundary inp cur) then .panicked
        else
          match find_word inp (strBytes w) cur res.isNone with
          | .ok none => .ok ((none, false), frontier)
          | .ok (some (s, e)) => execNode fuel inp (orNew res s) rest (e + 1) frontier
          | .err e => .err e
          | .panicked => .panicked
          | .outOfFuel => .outOfFuel
      | .optional body =>
        .ok ((res, false), ⟨res, body ++ rest, cur⟩ :: ⟨res, rest, cur⟩ :: frontier)
      | .zeroOrMore body greedy =>
        .ok ((res, false),
          ⟨res, .oneOrMore body greedy :: rest, cur⟩ :: ⟨res, rest, cur⟩ :: frontier)
      | .oneOrMore body greedy =>
        match execNode fuel inp res body cur frontier with
        | .ok ((newRes, _), fr1) =>
          let res1 := map_options res newRes
          match newRes with
          | none => .ok ((none, false), fr1)
          | some nr =>
            let cur1 := nr.stop + 1
            if greedy then
              .ok ((none, false), ⟨res1, .zeroOrMore body greedy :: rest, cur1⟩ :: fr1)
            else
              match execNode fuel inp res1 rest cur1 fr1 with
              | .ok ((some r, flag), fr2) => .ok ((some r, flag), fr2)
              | .ok ((none, _), fr2) =>
                .ok ((none, false), ⟨res1, .zeroOrMore body greedy :: rest, cur1⟩ :: fr2)
              | .err e => .err e
              | .panicked => .panicked
              | .outOfFuel => .outOfFuel
        | .err e => .err e
        | .panicked => .panicked
        | .outOfFuel => .outOfFuel
      | .repetitionRange mn mx body =>
        match repMin (fun r c f => execNode fuel inp r body c f) mn res cur frontier with
        | .ok (none, fr1) => .ok ((none, false), fr1)
        | .ok (some (res1, cur1), fr1) =>
          match mx with
          | some mxv =>
            if mn = mxv then execNode fuel inp res1 rest cur1 fr1
            else
              let fr2 := ⟨res1, rest, cur1⟩ :: fr1
              if mxv < mn then .panicked
              else .ok ((none, false),
                ⟨res1, .repetitionRange 1 (some (mxv - mn)) body :: rest, cur1⟩ :: fr2)
          | none =>
            .ok ((none, false), ⟨res1, .zeroOrMore body false :: rest, cur1⟩ :: fr1)
        | .err e => .err e
        | .panicked => .panicked
        | .outOfFuel => .outOfFuel
      | .group body cfg =>
        execNode fuel inp res (body ++ (.groupEnd cur cfg :: rest)) cur frontier
      | .groupEnd gs cfg =>
        match res, cfg with
        | some r, some (.named name) =>
          if cur = 0 then .panicked
          else
            execNode fuel inp
              (some { r with groups := gInsert r.groups name (gs, cur - 1) })
              rest cur frontier
        | _, _ => execNode fuel inp res rest cur frontier
      | .set s inverted =>
        match inp.get? cur with
        | none => .ok ((none, false), frontier)
        | some ch =>
          if s.contains ch != inverted then
            execNode fuel inp (orNew res cur) rest (cur + 1) frontier
          else .ok ((none, false), frontier)
      | .or l r =>
        .ok ((none, false), ⟨res, r ++ rest, cur⟩ :: ⟨res, l ++ rest, cur⟩ :: frontier)

/-- The longest-match update of `Executor::exec`: replace the running
best only when the new result's `end` is strictly greater. -/
def updateBest (best : Option ExecResult) (r : ExecResult) : Option ExecResult :=
  match best with
  | none => some r
  | some c => if c.stop < r.stop then some r else some c

/-- The frontier loop of `Executor::exec`: pop states LIFO, run each,
and record every `Some` result as a candidate (ghost log `log`, with
the completion flag), updating the running best. -/
def execLoop (inp : List Char) : Nat → List ExecutorState → Option ExecResult →
    List (ExecResult × Bool) → Outcome (Option ExecResult × List (ExecResult × Bool))
  | _, [], best, log => .ok (best, log)
  | 0, _ :: _, _, _ => .outOfFuel
  | fuel + 1, st :: rest, best, log =>
    match execNode fuel inp st.res st.node st.cur rest with
    | .ok ((some r, flag), fr') => execLoop inp fuel fr' (updateBest best r) (log ++ [(r, flag)])
    | .ok ((none, _), fr') => execLoop inp fuel fr' best log
    | .err e => .err e
    | .panicked => .panicked
    | .outOfFuel => .outOfFuel

/-- `Executor::exec`: seed the frontier with the whole program at
cursor 0 and run the loop; returns the best candidate (`None` if no
candidate was recorded) together with the ghost candidate log. -/
def Executor.exec (fuel : Nat) (head : List RVal) (input : List Char) :
    Outcome (Option ExecResult × List (ExecResult × Bool)) :=
  execLoop input fuel [⟨none, head, 0⟩] none []

/-- `ReplaceSpecNodeValue` from `src/replace/mod.rs`. -/
inductive ReplaceSpecNodeValue where
  | string (s : List Char)
  | groupNum (s : List Char)
deriving DecidableEq, Repr

/-- The `'1'..='9'` match in `ReplaceSpec::parse_str`'s group-number
loop (note: `'0'` is not included). -/
def is19 (c : Char) : Bool := '1' ≤ c && c ≤ '9'

/-- Flushing `curr_word` into the parts list. -/
def flushWord (curr : Option (List Char)) : List ReplaceSpecNodeValue :=
  match curr with
  | none => []
  | some w => [.string w]

/-- The peek loop reading a group number after `$`: the maximal run of
characters `'1'..='9'`, and the unconsumed rest. -/
def takeDigits19 : List Char → List Char × List Char
  | [] => ([], [])
  | c :: cs =>
    if is19 c then
      let (t, r) := takeDigits19 cs
      (c :: t, r)
    else ([], c :: cs)

/-- The loop of `ReplaceSpec::parse_str`, with the iteration count made
explicit (every iteration consumes at least one character, so
`length + 1` units always suffice and the `0` case is unreachable from
the wrapper): literal characters accumulate into `curr_word`; `$`
flushes the word and reads a group number. -/
def replace_parse_go : Nat → List Char → Option (List Char) → List ReplaceSpecNodeValue
  | 0, _, _ => []
  | _ + 1, [], curr => flushWord curr
  | fuel + 1, c :: cs, curr =>
    if c = '$' then
      flushWord curr ++
        (.groupNum (takeDigits19 cs).1 :: replace_parse_go fuel (takeDigits19 cs).2 none)
    else
      replace_parse_go fuel cs
        (match curr with
         | none => some [c]
         | some w => some (w ++ [c]))

/-- `ReplaceSpec::parse_str`. -/
def ReplaceSpec.parse_str (s : List Char) (curr : Option (List Char)) :
    List ReplaceSpecNodeValue :=
  replace_parse_go (s.length + 1) s curr

/-- The fold body of `ReplaceSpec::perform_replace`: literal parts emit
their bytes; `$N` emits the byte slice `input[start..=end]` for a bound
group (a panic—`none`—when the inclusive slice is invalid), or the
literal `$N` when the name is unbound. -/
def renderParts : List ReplaceSpecNodeValue → List Char → ExecResult → List Nat →
    Option (List Nat)
  | [], _, _, acc => some acc
  | .string w :: rest, input, res, acc => renderParts rest input res (acc ++ strBytes w)
  | .groupNum g :: rest, input, res, acc =>
    match gLookup res.groups g with
    | none => renderParts rest input res (acc ++ strBytes ('$' :: g))
    | some (a, b) =>
      if isBoundary input a && isBoundary input (b + 1) &&
          decide (a ≤ b + 1) && decide (b + 1 ≤ (strBytes input).length) then
        renderParts rest input res (acc ++ (((strBytes input).drop a).take (b + 1 - a)))
      else none

/-- `ReplaceSpec::perform_replace`: `None` when the parts list is
empty, otherwise the rendered bytes (or a panic from an invalid group
slice). -/
def ReplaceSpec.perform_replace (parts : List ReplaceSpecNodeValue) (input : List Char)
    (res : ExecResult) : Outcome (Option (List Nat)) :=
  match parts with
  | [] => .ok none
  | _ =>
    match renderParts parts input res [] with
    | some acc => .ok (some acc)
    | none => .panicked

/-! ## Theorems -/

/-- C6: the claim says `compile` is total — for every pattern string,
including one that begins with `|`, it returns either a program or a
parse error and never aborts.  The code is not: on the pattern `|a` the
parser reaches `left.unwrap()` with `head = None` (nothing precedes the
`|`) and panics instead of returning a `ParseError`. -/
theorem C6_code_bug : parse_str ("|a".toList) = .panicked := rfl

/-- C7: the claim says execute always returns a value and that a state
completing with the program pointer exhausted and a partial result set
has cursor ≥ 1.  On the pattern `^` (which compiles to a single `Start`
node) the seed state completes at cursor 0, and `res.end = cur - 1`
underflows `usize`: the executor panics instead of returning. -/
theorem C7_code_bug :
    parse_str ("^".toList) = .ok [.start] ∧
    Executor.exec 10 [.start] ("".toList) = .panicked ∧
    Executor.exec 10 [.start] ("abc".toList) = .panicked :=
  ⟨rfl, rfl, rfl⟩

/-- C8: the claim says a pattern like `{5,2}` is rejected at parse time
so that the executor's `max - min` rewrite never underflows.  The
parser performs no `min ≤ max` check: `a{2,1}` parses successfully, and
executing it on `aa` reaches the `Range{min, Some(max)}` rewrite where
the `u32` subtraction `1 - 2` underflows and panics. -/
theorem C8_code_bug :
    parse_str ("a{2,1}".toList) = .ok [.repetitionRange 2 (some 1) [.word ['a']]] ∧
    Executor.exec 20 [.repetitionRange 2 (some 1) [.word ['a']]] ("aa".toList) = .panicked :=
  ⟨rfl, rfl⟩

/-- C1 counterexample: the claim breaks ties on `end` by earliest
`start`.  On pattern `ab|b` and input `ab` two candidates complete,
`{start 1, end 1}` (right alternative, explored first) and
`{start 0, end 1}`; the loop replaces the best only on strictly greater
`end`, so the returned match has `start = 1`, not the earliest start 0. -/
theorem C1_counterexample :
    parse_str ("ab|b".toList) = .ok [.or [.word ['a', 'b']] [.word ['b']]] ∧
    Executor.exec 10 [.or [.word ['a', 'b']] [.word ['b']]] ("ab".toList) =
      .ok (some ⟨1, 1, []⟩, [(⟨1, 1, []⟩, true), (⟨0, 1, []⟩, true)]) ∧
    ((⟨0, 1, []⟩ : ExecResult).stop = (⟨1, 1, []⟩ : ExecResult).stop ∧
      (⟨0, 1, []⟩ : ExecResult).start < (⟨1, 1, []⟩ : ExecResult).start) :=
  ⟨rfl, rfl, rfl, by decide⟩

/-- C2 counterexample: the claim says only completed states (program
pointer exhausted with a partial result set) are recorded as match
candidates, so visiting an `Optional` node never by itself produces a
candidate.  On pattern `ab?c` and input `a`, the `Optional` case
returns its partial result after pushing its two branches, the loop
records it (the ghost completion flag is `false`: no state ever
completed), and the executor returns `Some {start 0, end 0}` even
though neither branch of the search can complete. -/
theorem C2_counterexample :
    parse_str ("ab?c".toList) = .ok [.word ['a'], .optional [.word ['b']], .word ['c']] ∧
    Executor.exec 10 [.word ['a'], .optional [.word ['b']], .word ['c']] ("a".toList) =
      .ok (some ⟨0, 0, []⟩, [(⟨0, 0, []⟩, false)]) ∧
    (∀ p ∈ [((⟨0, 0, []⟩ : ExecResult), false)], p.2 = false) :=
  ⟨rfl, rfl, by decide⟩

/-- C3 counterexample: the claim says `{m}` parses to
`Range{min = m, max = Some m}`.  In the code the `}` branch of
`parse_repetition_range_vals` breaks before any max handling, so `{2}`
yields `(2, None)` — the same as `{2,}` — not `(2, Some 2)`. -/
theorem C3_counterexample :
    parse_repetition_range_vals ("{2}".toList) = .ok ((2, none), []) ∧
    parse_repetition_range_vals ("{2}".toList) ≠ .ok ((2, some 2), []) := by
  constructor
  · rfl
  · decide

/-- C4 counterexample: the claim says every named group's interval lies
within the outer match's interval.  On pattern `(?<g>a) b` and input
`xxa b`, the group records `start = 0` (the cursor at group entry)
while the literal inside the group slides the match start to 2: the
returned match is `{start 2, end 4}` with `g ↦ (0, 2)`, whose start
lies outside the match. -/
theorem C4_counterexample :
    parse_str ("(?<g>a) b".toList) =
      .ok [.group [.word ['a']] (some (.named ['g'])), .word [' ', 'b']] ∧
    Executor.exec 20 [.group [.word ['a']] (some (.named ['g'])), .word [' ', 'b']]
        ("xxa b".toList) =
      .ok (some ⟨2, 4, [(['g'], 0, 2)]⟩, [(⟨2, 4, [(['g'], 0, 2)]⟩, true)]) ∧
    (gLookup [(['g'], 0, 2)] ['g'] = some (0, 2) ∧
      (0 : Nat) < (⟨2, 4, [(['g'], 0, 2)]⟩ : ExecResult).start) :=
  ⟨rfl, rfl, rfl, by decide⟩

/-- C9 counterexample: the claim says the maximal run of digits after
`$` is the group name.  The code's digit loop matches only `'1'..='9'`
(not `'0'`), so template `$10` parses as the reference `$1` followed by
the literal `0`, not as a reference to group `10`. -/
theorem C9_counterexample :
    ReplaceSpec.parse_str ("$10".toList) none = [.groupNum ['1'], .string ['0']] ∧
    ReplaceSpec.parse_str ("$10".toList) none ≠ [.groupNum ['1', '0']] := by
  constructor
  · rfl
  · decide

/-- C10 counterexample: the claim says execute never aborts on valid
UTF-8 input because literal matching slices only at character
boundaries.  On pattern `b` and the two-character input `éb` the first
sliding probe slices `input[0..1]`, and byte offset 1 falls inside the
two-byte encoding of `é` — not a character boundary — so the executor
panics. -/
theorem C10_counterexample :
    parse_str ("b".toList) = .ok [.word ['b']] ∧
    Executor.exec 10 [.word ['b']] ("éb".toList) = .panicked ∧
    isBoundary ("éb".toList) 1 = false :=
  ⟨rfl, rfl, rfl⟩

/-- C2 amended: for every `Optional(body)` node reached during
execution, the executor pushes a state "skip body, continue with next"
onto the frontier, pushes on top of it a state "body with its tail
spliced to next" (which the LIFO frontier therefore explores first),
and returns its current partial result, which the top-level loop
records as a match candidate whenever it is set — so visiting an
`Optional` node with a partial result set does by itself produce a
candidate (one not arising from a completed state). -/
theorem C2_amended (fuel : Nat) (inp : List Char) (res : Option ExecResult)
    (body rest : List RVal) (cur : Nat) (fr : List ExecutorState) :
    execNode (fuel + 1) inp res (.optional body :: rest) cur fr =
      .ok ((res, false), ⟨res, body ++ rest, cur⟩ :: ⟨res, rest, cur⟩ :: fr) := rfl

/-- C4 amended: a named capture group is recorded at `GroupEnd` time as
the interval `(start, cursor - 1)`, where `start` is the cursor at
group entry; this interval need not lie within the outer match's
interval (its start can precede the match's start when a literal
inside the group slides the match start forward). -/
theorem C4_amended (fuel : Nat) (inp : List Char) (r : ExecResult) (gs : Nat)
    (name : List Char) (rest : List RVal) (cur : Nat) (fr : List ExecutorState)
    (h : 1 ≤ cur) :
    execNode (fuel + 1) inp (some r) (.groupEnd gs (some (.named name)) :: rest) cur fr =
      execNode fuel inp (some { r with groups := gInsert r.groups name (gs, cur - 1) })
        rest cur fr := by
  have hz : ¬ cur = 0 := by omega
  simp only [execNode, hz, if_false]

/-- Witness for `C4_amended` at a concrete state. -/
theorem C4_amended_witness :
    execNode 1 [] (some ⟨0, 0, []⟩) [.groupEnd 0 (some (.named ['g']))] 1 [] =
      execNode 0 [] (some ⟨0, 0, [(['g'], 0, 0)]⟩) [] 1 [] :=
  C4_amended 0 [] ⟨0, 0, []⟩ 0 ['g'] [] 1 [] (by decide)

/-- The frontier loop only appends to the candidate log, and its final
best is the `updateBest` fold of the running best over the appended
candidates. -/
theorem execLoop_log (inp : List Char) :
    ∀ (fuel : Nat) (fr : List ExecutorState) (b : Option ExecResult)
      (l : List (ExecResult × Bool)) (b' : Option ExecResult)
      (l' : List (ExecResult × Bool)),
      execLoop inp fuel fr b l = .ok (b', l') →
      ∃ suf, l' = l ++ suf ∧ b' = suf.foldl (fun bb p => updateBest bb p.1) b := by
  intro fuel
  induction fuel with
  | zero =>
    intro fr b l b' l' h
    cases fr with
    | nil =>
      simp only [execLoop, Outcome.ok.injEq, Prod.mk.injEq] at h
      exact ⟨[], by simp [← h.1, ← h.2]⟩
    | cons st rest => simp [execLoop] at h
  | succ fuel ih =>
    intro fr b l b' l' h
    cases fr with
    | nil =>
      simp only [execLoop, Outcome.ok.injEq, Prod.mk.injEq] at h
      exact ⟨[], by simp [← h.1, ← h.2]⟩
    | cons st rest =>
      simp only [execLoop] at h
      cases hx : execNode fuel inp st.res st.node st.cur rest with
      | ok pr =>
        obtain ⟨⟨or', flag⟩, fr'⟩ := pr
        rw [hx] at h
        cases or' with
        | some r =>
          obtain ⟨suf, hsuf, hb⟩ := ih fr' (updateBest b r) (l ++ [(r, flag)]) b' l' h
          exact ⟨(r, flag) :: suf, by simp [hsuf], by simp [hb]⟩
        | none => exact ih fr' b l b' l' h
      | err e => rw [hx] at h; cases h
      | panicked => rw [hx] at h; cases h
      | outOfFuel => rw [hx] at h; cases h

/-- Folding `updateBest` from a set best never loses it. -/
theorem foldl_updateBest_isSome (l : List ExecResult) :
    ∀ c : ExecResult, (List.foldl updateBest (some c) l).isSome = true := by
  induction l with
  | nil => intro c; rfl
  | cons r rs ih =>
    intro c
    simp only [List.foldl_cons, updateBest]
    by_cases hcr : c.stop < r.stop
    · simp only [hcr, if_pos]; exact ih r
    · simp only [hcr, if_neg, if_false]; exact ih c

/-- Characterisation of the `updateBest` fold from a set best: either
nothing beats it, or the result is the first element strictly beating
everything before it, with everything after at most as long. -/
theorem foldl_updateBest_some (l : List ExecResult) :
    ∀ c q : ExecResult, List.foldl updateBest (some c) l = some q →
      (q = c ∧ ∀ r ∈ l, r.stop ≤ c.stop) ∨
      (∃ l1 l2, l = l1 ++ q :: l2 ∧ c.stop < q.stop ∧
        (∀ r ∈ l1, r.stop < q.stop) ∧ (∀ r ∈ l2, r.stop ≤ q.stop)) := by
  induction l with
  | nil =>
    intro c q h
    simp only [List.foldl_nil, Option.some.injEq] at h
    exact Or.inl ⟨h.symm, by simp⟩
  | cons r rs ih =>
    intro c q h
    simp only [List.foldl_cons, updateBest] at h
    by_cases hcr : c.stop < r.stop
    · rw [if_pos hcr] at h
      rcases ih r q h with ⟨hq, hb⟩ | ⟨l1, l2, hsplit, hlt, h1, h2⟩
      · refine Or.inr ⟨[], rs, ?_, ?_, ?_, ?_⟩
        · simp [hq]
        · rw [hq]; exact hcr
        · simp
        · intro x hx; rw [hq]; exact hb x hx
      · refine Or.inr ⟨r :: l1, l2, ?_, ?_, ?_, ?_⟩
        · simp [hsplit]
        · exact lt_trans hcr hlt
        · intro x hx
          rcases List.mem_cons.mp hx with hx | hx
          · rw [hx]; exact hlt
          · exact h1 x hx
        · exact h2
    · rw [if_neg hcr] at h
      rcases ih c q h with ⟨hq, hb⟩ | ⟨l1, l2, hsplit, hlt, h1, h2⟩
      · refine Or.inl ⟨hq, ?_⟩
        intro x hx
        rcases List.mem_cons.mp hx with hx | hx
        · rw [hx]; omega
        · exact hb x hx
      · refine Or.inr ⟨r :: l1, l2, ?_, ?_, ?_, ?_⟩
        · simp [hsplit]
        · exact hlt
        · intro x hx
          rcases List.mem_cons.mp hx with hx | hx
          · rw [hx]; omega
          · exact h1 x hx
        · exact h2

/-- Characterisation of the `updateBest` fold from `none`: the result
is the first element whose `end` strictly exceeds everything before
it, with everything after at most as long. -/
theorem foldl_updateBest_none (l : List ExecResult) (q : ExecResult)
    (h : List.foldl updateBest none l = some q) :
    ∃ l1 l2, l = l1 ++ q :: l2 ∧
      (∀ r ∈ l1, r.stop < q.stop) ∧ (∀ r ∈ l2, r.stop ≤ q.stop) := by
  cases l with
  | nil => cases h
  | cons r rs =>
    simp only [List.foldl_cons, updateBest] at h
    rcases foldl_updateBest_some rs r q h with ⟨hq, hb⟩ | ⟨l1, l2, hsplit, hlt, h1, h2⟩
    · exact ⟨[], rs, by simp [hq], by simp, fun x hx => hq ▸ hb x hx⟩
    · refine ⟨r :: l1, l2, by simp [hsplit], ?_, h2⟩
      intro x hx
      rcases List.mem_cons.mp hx with hx | hx
      · rw [hx]; exact hlt
      · exact h1 x hx

/-- C1 amended: after the frontier is exhausted, `execute` returns the
first-observed candidate among those with maximal `end` (a later
candidate replaces the running best only when its `end` is strictly
greater — ties are broken by discovery order, not by earliest
`start`); the candidates are all the `Some` results recorded by the
loop (which include partial results returned at `Optional`/`ZeroOrMore`
nodes, not only completed states); if no candidate was recorded,
`execute` returns `None`. -/
theorem C1_amended (fuel : Nat) (prog : List RVal) (inp : List Char)
    (best : Option ExecResult) (log : List (ExecResult × Bool))
    (h : Executor.exec fuel prog inp = .ok (best, log)) :
    (best = none ↔ log = []) ∧
    (∀ q, best = some q →
      (∀ p ∈ log, p.1.stop ≤ q.stop) ∧
      ∃ l1 l2, log.map Prod.fst = l1 ++ q :: l2 ∧
        (∀ r ∈ l1, r.stop < q.stop) ∧ (∀ r ∈ l2, r.stop ≤ q.stop)) := by
  obtain ⟨suf, hsuf, hb⟩ := execLoop_log inp fuel [⟨none, prog, 0⟩] none [] best log h
  simp only [List.nil_append] at hsuf
  rw [← hsuf] at hb
  rw [← List.foldl_map Prod.fst updateBest log] at hb
  constructor
  · constructor
    · intro hnone
      cases hq : log with
      | nil => rfl
      | cons p ps =>
        rw [hq] at hb
        simp only [List.map_cons, List.foldl_cons, updateBest] at hb
        have := foldl_updateBest_isSome (ps.map Prod.fst) p.1
        rw [← hb, hnone] at this
        cases this
    · intro hnil; rw [hnil] at hb; simpa using hb
  · intro q hq
    rw [hq] at hb
    obtain ⟨l1, l2, hsplit, h1, h2⟩ := foldl_updateBest_none (log.map Prod.fst) q hb.symm
    refine ⟨?_, l1, l2, hsplit, h1, h2⟩
    intro p hp
    have hmem : p.1 ∈ log.map Prod.fst := List.mem_map_of_mem Prod.fst hp
    rw [hsplit] at hmem
    rcases List.mem_append.mp hmem with hm | hm
    · exact le_of_lt (h1 _ hm)
    · rcases List.mem_cons.mp hm with hm | hm
      · rw [hm]
      · exact h2 _ hm

/-- Witness for `C1_amended` on the `ab|b` / `ab` run. -/
theorem C1_amended_witness :
    ((some (⟨1, 1, []⟩ : ExecResult) = none) ↔
      ([((⟨1, 1, []⟩ : ExecResult), true), (⟨0, 1, []⟩, true)] :
        List (ExecResult × Bool)) = []) ∧
    (∀ q, some (⟨1, 1, []⟩ : ExecResult) = some q →
      (∀ p ∈ ([((⟨1, 1, []⟩ : ExecResult), true), (⟨0, 1, []⟩, true)] :
          List (ExecResult × Bool)), p.1.stop ≤ q.stop) ∧
      ∃ l1 l2,
        ([((⟨1, 1, []⟩ : ExecResult), true), (⟨0, 1, []⟩, true)] :
            List (ExecResult × Bool)).map Prod.fst = l1 ++ q :: l2 ∧
          (∀ r ∈ l1, r.stop < q.stop) ∧ (∀ r ∈ l2, r.stop ≤ q.stop)) :=
  C1_amended 10 [.or [.word ['a', 'b']] [.word ['b']]] ("ab".toList)
    (some ⟨1, 1, []⟩) [(⟨1, 1, []⟩, true), (⟨0, 1, []⟩, true)] rfl

/-- Digit characters make both repetition-range loops accumulate. -/
theorem rangeMaxLoop_digits (ds : List Char) (hd : ∀ c ∈ ds, isDigitCh c = true) :
    ∀ (rest : List Char) (acc : Option (List Char)),
      rangeMaxLoop (ds ++ rest) acc = rangeMaxLoop rest (List.foldl pushDigit acc ds) := by
  induction ds with
  | nil => intro rest acc; rfl
  | cons d ds ih =>
    intro rest acc
    have hdd : isDigitCh d = true := hd d (by simp)
    simp only [List.cons_append, rangeMaxLoop, hdd, if_true, List.foldl_cons]
    exact ih (fun c hc => hd c (by simp [hc])) rest (pushDigit acc d)

/-- Digit characters make the min loop accumulate. -/
theorem rangeMinLoop_digits (ds : List Char) (hd : ∀ c ∈ ds, isDigitCh c = true) :
    ∀ (rest : List Char) (acc : Option (List Char)),
      rangeMinLoop (ds ++ rest) acc = rangeMinLoop rest (List.foldl pushDigit acc ds) := by
  induction ds with
  | nil => intro rest acc; rfl
  | cons d ds ih =>
    intro rest acc
    have hdd : isDigitCh d = true := hd d (by simp)
    simp only [List.cons_append, rangeMinLoop, hdd, if_true, List.foldl_cons]
    exact ih (fun c hc => hd c (by simp [hc])) rest (pushDigit acc d)

/-- Folding `pushDigit` into a set accumulator appends the digits. -/
theorem foldl_pushDigit_some (ds : List Char) :
    ∀ w : List Char, List.foldl pushDigit (some w) ds = some (w ++ ds) := by
  induction ds with
  | nil => intro w; simp
  | cons d ds ih =>
    intro w
    simp only [List.foldl_cons, pushDigit]
    rw [ih (w ++ [d])]
    simp

/-- Folding `pushDigit` into an empty accumulator gives the digits. -/
theorem foldl_pushDigit_none (ds : List Char) (h : ds ≠ []) :
    List.foldl pushDigit none ds = some ds := by
  cases ds with
  | nil => cases h rfl
  | cons d ds =>
    simp only [List.foldl_cons, pushDigit]
    rw [foldl_pushDigit_some ds [d]]
    simp

/-- The max loop stops at `}`. -/
theorem rangeMaxLoop_close (rest : List Char) (acc : Option (List Char)) :
    rangeMaxLoop ('}' :: rest) acc = .ok (acc, rest) := by
  have h : isDigitCh '}' = false := by decide
  simp [rangeMaxLoop, h]

/-- The min loop stops at `}`. -/
theorem rangeMinLoop_close (rest : List Char) (acc : Option (List Char)) :
    rangeMinLoop ('}' :: rest) acc = .ok ((acc, none), rest) := by
  have h : isDigitCh '}' = false := by decide
  simp [rangeMinLoop, h]

/-- The min loop dispatches to the max loop at `,`. -/
theorem rangeMinLoop_comma (rest : List Char) (acc : Option (List Char)) :
    rangeMinLoop (',' :: rest) acc =
      match rangeMaxLoop rest none with
      | .ok (accMax, rem) => .ok ((acc, accMax), rem)
      | .err e => .err e
      | .panicked => .panicked
      | .outOfFuel => .outOfFuel := by
  have h : isDigitCh ',' = false := by decide
  have h2 : ¬ (',' : Char) = '}' := by decide
  simp [rangeMinLoop, h, h2]

/-- C3 amended: where `ds` and `es` are the (non-empty, all-digit)
decimal representations of `m` and `n` (as `u32` values, via
`parseU32`): `{m}` parses to `Range{min = m, max = None}` — the same as
`{m,}`, not `Some m` as the original claim states; `{m,}` parses to
`Range{min = m, max = None}`; `{m,n}` parses to
`Range{min = m, max = Some n}`; and a range with no minimum digit run
(`{}`, or `{,n}`) is the parse error `MissingRepetitionRangeMin`. -/
theorem C3_amended (ds es rest : List Char) (m n : Nat)
    (hds : ds ≠ []) (hd : ∀ c ∈ ds, isDigitCh c = true) (hm : parseU32 ds = some m)
    (hes : es ≠ []) (he : ∀ c ∈ es, isDigitCh c = true) (hn : parseU32 es = some n) :
    parse_repetition_range_vals ('{' :: ds ++ '}' :: rest) = .ok ((m, none), rest) ∧
    parse_repetition_range_vals ('{' :: ds ++ ',' :: '}' :: rest) = .ok ((m, none), rest) ∧
    parse_repetition_range_vals ('{' :: ds ++ ',' :: es ++ '}' :: rest) =
      .ok ((m, some n), rest) ∧
    parse_repetition_range_vals ('{' :: '}' :: rest) = .err .missingRepetitionRangeMin ∧
    parse_repetition_range_vals ('{' :: ',' :: es ++ '}' :: rest) =
      .err .missingRepetitionRangeMin := by
  refine ⟨?_, ?_, ?_, ?_, ?_⟩
  · simp only [parse_repetition_range_vals, List.cons_append, List.append_assoc, List.drop_one, List.tail_cons]
    rw [rangeMinLoop_digits ds hd ('}' :: rest) none, foldl_pushDigit_none ds hds,
      rangeMinLoop_close]
    simp [hm]
  · simp only [parse_repetition_range_vals, List.cons_append, List.append_assoc, List.drop_one, List.tail_cons]
    rw [rangeMinLoop_digits ds hd (',' :: '}' :: rest) none, foldl_pushDigit_none ds hds,
      rangeMinLoop_comma, rangeMaxLoop_close]
    simp [hm]
  · simp only [parse_repetition_range_vals, List.cons_append, List.append_assoc, List.drop_one, List.tail_cons]
    rw [rangeMinLoop_digits ds hd (',' :: (es ++ '}' :: rest)) none,
      foldl_pushDigit_none ds hds, rangeMinLoop_comma,
      rangeMaxLoop_digits es he ('}' :: rest) none, foldl_pushDigit_none es hes,
      rangeMaxLoop_close]
    simp [hm, hn]
  · simp only [parse_repetition_range_vals, List.cons_append, List.append_assoc, List.drop_one, List.tail_cons]
    rw [rangeMinLoop_close]
  · simp only [parse_repetition_range_vals, List.cons_append, List.append_assoc, List.drop_one, List.tail_cons]
    rw [rangeMinLoop_comma, rangeMaxLoop_digits es he ('}' :: rest) none,
      foldl_pushDigit_none es hes, rangeMaxLoop_close]

/-- Witness for `C3_amended` with `m = 2`, `n = 3`. -/
theorem C3_amended_witness :
    parse_repetition_range_vals ("{2}".toList) = .ok ((2, none), []) ∧
    parse_repetition_range_vals ("{2,}".toList) = .ok ((2, none), []) ∧
    parse_repetition_range_vals ("{2,3}".toList) = .ok ((2, some 3), []) ∧
    parse_repetition_range_vals ("{}".toList) = .err .missingRepetitionRangeMin ∧
    parse_repetition_range_vals ("{,3}".toList) = .err .missingRepetitionRangeMin :=
  C3_amended ['2'] ['3'] [] 2 3 (by decide) (by decide) (by decide)
    (by decide) (by decide) (by decide)

/-- The residue of the `$`-digit scan is never longer than its input. -/
theorem takeDigits19_rest_length (s : List Char) : (takeDigits19 s).2.length ≤ s.length := by
  induction s with
  | nil => simp [takeDigits19]
  | cons c cs ih =>
    simp only [takeDigits19]
    by_cases h : is19 c = true
    · simp only [h, if_true]
      exact le_trans ih (Nat.le_succ _)
    · simp [h]

/-- The `$`-digit scan takes exactly a leading run of `'1'..='9'`. -/
theorem takeDigits19_all (ds rest : List Char) (hd : ∀ c ∈ ds, is19 c = true)
    (hrest : ∀ c ∈ rest.take 1, is19 c = false) :
    takeDigits19 (ds ++ rest) = (ds, rest) := by
  induction ds with
  | nil =>
    cases rest with
    | nil => rfl
    | cons r rs =>
      have : is19 r = false := hrest r (by simp)
      simp [takeDigits19, this]
  | cons d ds ih =>
    have hdd : is19 d = true := hd d (by simp)
    simp only [List.cons_append, takeDigits19, hdd, if_true, List.append_eq]
    simp [ih (fun c hc => hd c (by simp [hc]))]

/-- `replace_parse_go` is fuel-irrelevant once the fuel exceeds the
input length. -/
theorem replace_parse_go_fuel :
    ∀ (f g : Nat) (s : List Char) (curr : Option (List Char)),
      s.length < f → s.length < g →
      replace_parse_go f s curr = replace_parse_go g s curr := by
  intro f
  induction f with
  | zero => intro g s curr hf; omega
  | succ f ih =>
    intro g s curr hf hg
    cases g with
    | zero => omega
    | succ g =>
      cases s with
      | nil => rfl
      | cons c cs =>
        simp only [List.length_cons] at hf hg
        simp only [replace_parse_go]
        by_cases hc : c = '$'
        · simp only [hc, if_true, if_pos rfl]
          have hr := takeDigits19_rest_length cs
          rw [ih g (takeDigits19 cs).2 none (by omega) (by omega)]
        · simp only [hc, if_false]
          rw [ih g cs _ (by omega) (by omega)]

/-- With a set `curr_word`, the replace parse always produces a part. -/
theorem replace_parse_go_some_ne_nil :
    ∀ (f : Nat) (s : List Char) (w : List Char),
      s.length < f → replace_parse_go f s (some w) ≠ [] := by
  intro f
  induction f with
  | zero => intro s w hf; omega
  | succ f ih =>
    intro s w hf
    cases s with
    | nil => simp [replace_parse_go, flushWord]
    | cons c cs =>
      simp only [List.length_cons] at hf
      simp only [replace_parse_go]
      by_cases hc : c = '$'
      · simp [hc, flushWord]
      · simp only [hc, if_false]
        exact ih cs (w ++ [c]) (by omega)

/-- C9 amended: template parsing treats the maximal run of the digits
`'1'..='9'` (not including `'0'`) immediately following `$` as the
group name (the first character outside `'1'..='9'` ends it);
rendering emits the byte slice `input[start..=end]` for a group name
bound in the match's groups (when the slice is valid — otherwise the
Rust slice panics), emits the literal text `$N` when the name `N` is
not in `groups`, and `perform_replace` returns `None` exactly when the
parsed template has zero parts, which happens exactly for the empty
template string. -/
theorem C9_amended :
    (∀ ds rest, (∀ c ∈ ds, is19 c = true) → (∀ c ∈ rest.take 1, is19 c = false) →
      ReplaceSpec.parse_str ('$' :: (ds ++ rest)) none =
        .groupNum ds :: ReplaceSpec.parse_str rest none) ∧
    (∀ g a b (input : List Char) (r : ExecResult) rest acc,
      gLookup r.groups g = some (a, b) →
      isBoundary input a = true → isBoundary input (b + 1) = true →
      a ≤ b + 1 → b + 1 ≤ (strBytes input).length →
      renderParts (.groupNum g :: rest) input r acc =
        renderParts rest input r (acc ++ ((strBytes input).drop a).take (b + 1 - a))) ∧
    (∀ g (input : List Char) (r : ExecResult) rest acc,
      gLookup r.groups g = none →
      renderParts (.groupNum g :: rest) input r acc =
        renderParts rest input r (acc ++ strBytes ('$' :: g))) ∧
    (∀ parts (input : List Char) (r : ExecResult),
      ReplaceSpec.perform_replace parts input r = .ok none ↔ parts = []) ∧
    (∀ s, ReplaceSpec.parse_str s none = [] ↔ s = []) := by
  refine ⟨?_, ?_, ?_, ?_, ?_⟩
  · intro ds rest hd hrest
    show replace_parse_go (('$' :: (ds ++ rest)).length + 1) ('$' :: (ds ++ rest)) none = _
    have hstep :
        replace_parse_go (('$' :: (ds ++ rest)).length + 1) ('$' :: (ds ++ rest)) none =
          flushWord none ++
            (.groupNum (takeDigits19 (ds ++ rest)).1 ::
              replace_parse_go (('$' :: (ds ++ rest)).length) (takeDigits19 (ds ++ rest)).2
                none) := rfl
    rw [hstep, takeDigits19_all ds rest hd hrest, flushWord, List.nil_append]
    refine congrArg _ ?_
    exact replace_parse_go_fuel _ _ rest none
      (by simp only [List.length_cons, List.length_append]; omega) (by omega)
  · intro g a b input r rest acc hg h1 h2 h3 h4
    simp only [renderParts, hg, h1, h2, h3, h4]
    simp
  · intro g input r rest acc hg
    simp only [renderParts, hg]
  · intro parts input r
    constructor
    · intro h
      cases parts with
      | nil => rfl
      | cons p ps =>
        simp only [ReplaceSpec.perform_replace] at h
        cases hx : renderParts (p :: ps) input r [] with
        | some acc => rw [hx] at h; cases h
        | none => rw [hx] at h; cases h
    · intro h; rw [h]; rfl
  · intro s
    constructor
    · intro h
      cases s with
      | nil => rfl
      | cons c cs =>
        exfalso
        have hne : replace_parse_go ((c :: cs).length + 1) (c :: cs) none ≠ [] := by
          simp only [List.length_cons, replace_parse_go]
          by_cases hc : c = '$'
          · simp [hc, flushWord]
          · simp only [hc, if_false]
            exact replace_parse_go_some_ne_nil (cs.length + 1) cs [c] (by omega)
        exact hne h
    · intro h; rw [h]; rfl

/-- Witness for `C9_amended` on concrete templates and captures. -/
theorem C9_amended_witness :
    ReplaceSpec.parse_str ("$10".toList) none =
      .groupNum ['1'] :: ReplaceSpec.parse_str ['0'] none ∧
    renderParts [.groupNum ['1']] ("ab".toList) ⟨0, 1, [(['1'], 0, 0)]⟩ [] =
      renderParts [] ("ab".toList) ⟨0, 1, [(['1'], 0, 0)]⟩
        ([] ++ ((strBytes ("ab".toList)).drop 0).take (0 + 1 - 0)) ∧
    renderParts [.groupNum ['2']] ("ab".toList) ⟨0, 1, [(['1'], 0, 0)]⟩ [] =
      renderParts [] ("ab".toList) ⟨0, 1, [(['1'], 0, 0)]⟩
        ([] ++ strBytes ('$' :: ['2'])) ∧
    (ReplaceSpec.perform_replace [] ("ab".toList) ⟨0, 1, []⟩ = .ok none ↔
      ([] : List ReplaceSpecNodeValue) = []) ∧
    (ReplaceSpec.parse_str ("".toList) none = [] ↔ ("".toList) = []) :=
  ⟨C9_amended.1 ['1'] ['0'] (by decide) (by decide),
   C9_amended.2.1 ['1'] 0 0 ("ab".toList) ⟨0, 1, [(['1'], 0, 0)]⟩ [] []
     (by decide) (by decide) (by decide) (by decide) (by decide),
   C9_amended.2.2.1 ['2'] ("ab".toList) ⟨0, 1, [(['1'], 0, 0)]⟩ [] [] (by decide),
   C9_amended.2.2.2.1 [] ("ab".toList) ⟨0, 1, []⟩,
   C9_amended.2.2.2.2 ("".toList)⟩

/-- A non-special character differs from every special character. -/
theorem not_special_ne {c x : Char} (hc : is_special_char c = false)
    (hx : is_special_char x = true) : ¬ c = x := by
  intro h
  rw [h, hx] at hc
  cases hc

/-- `parse_word` gathers a maximal run of non-special characters and
stops, without consuming, at a special non-backslash character (or the
end of input). -/
theorem parse_word_run (w : List Char) (hp : ∀ c ∈ w, is_special_char c = false) :
    ∀ (rest acc : List Char),
      (∀ c ∈ rest.take 1, is_special_char c = true ∧ c ≠ '\\') →
      parse_word (w ++ rest) acc = .ok (acc ++ w, rest) := by
  induction w with
  | nil =>
    intro rest acc hrest
    cases rest with
    | nil => simp [parse_word]
    | cons r rs =>
      obtain ⟨h1, h2⟩ := hrest r (by simp)
      have hbe : (r == '\\') = false := beq_eq_false_iff_ne.mpr h2
      rw [parse_word.eq_def]
      simp [h1, hbe]
  | cons a w ih =>
    intro rest acc hrest
    have ha : is_special_char a = false := hp a (by simp)
    have hab : ¬ a = '\\' := not_special_ne ha (by decide)
    have ih' := ih (fun c hc => hp c (by simp [hc])) rest (acc ++ [a]) hrest
    rw [List.cons_append, parse_word.eq_def]
    simp [ha, hab, ih']

/-- Decorating a chain ending in a multi-character literal splits off
the final character: the preceding characters stay as a literal and the
decorator applies to the final character alone. -/
theorem decorate_concat_word (acc : List RVal) (w : List Char) (hw : 1 < w.length)
    (dec : List RVal → RVal) :
    decorate_node_option_for_last_char_modifiers (acc ++ [.word w]) dec =
      .ok (acc ++ [.word w.dropLast, dec [.word [w.getLastD ' ']]]) := by
  simp only [decorate_node_option_for_last_char_modifiers, List.getLast?_concat,
    List.dropLast_concat, hw, if_true]

/-- One parser-loop iteration over a literal run packs it into a single
`Word` node appended to the chain. -/
theorem parseLoop_word_step (fuel : Nat) (w : List Char) (hw : w ≠ [])
    (hp : ∀ c ∈ w, is_special_char c = false) (q : Char) (hq : is_special_char q = true)
    (hqb : q ≠ '\\') (rest : List Char) (acc : List RVal) :
    parseLoop (fuel + 1) (w ++ q :: rest) none acc =
      parseLoop fuel (q :: rest) none (acc ++ [.word w]) := by
  cases w with
  | nil => cases hw rfl
  | cons c w =>
    have hc : is_special_char c = false := hp c (by simp)
    have hpw : parse_word ((c :: w) ++ (q :: rest)) [] = .ok ([] ++ (c :: w), q :: rest) :=
      parse_word_run (c :: w) hp (q :: rest) []
        (by intro x hx; simp at hx; rw [hx]; exact ⟨hq, hqb⟩)
    simp only [List.nil_append] at hpw
    simp only [List.cons_append, parseLoop, untilMatches]
    rw [if_neg (by simp), if_neg (not_special_ne hc (by decide)),
      if_neg (not_special_ne hc (by decide)), if_neg (not_special_ne hc (by decide)),
      if_neg (not_special_ne hc (by decide)), if_neg (not_special_ne hc (by decide)),
      if_neg (not_special_ne hc (by decide)), if_neg (not_special_ne hc (by decide)),
      if_neg (not_special_ne hc (by decide)), if_neg (not_special_ne hc (by decide)),
      if_neg (not_special_ne hc (by decide))]
    rw [← List.cons_append, hpw]

/-- One parser-loop iteration at `*` (with optional `?` lazy marker)
after a chain ending in a multi-character literal. -/
theorem parseLoop_star_step (fuel : Nat) (acc : List RVal) (w : List Char)
    (hw : 1 < w.length) (rest rem : List Char) (g : Bool)
    (hch : chomp_greediness rest = (g, rem)) :
    parseLoop (fuel + 1) ('*' :: rest) none (acc ++ [.word w]) =
      parseLoop fuel rem none
        (acc ++ [.word w.dropLast, .zeroOrMore [.word [w.getLastD ' ']] g]) := by
  simp [parseLoop, untilMatches, hch, decorate_concat_word acc w hw]


/-- One parser-loop iteration at `+` (with optional `?` lazy marker)
after a chain ending in a multi-character literal. -/
theorem parseLoop_plus_step (fuel : Nat) (acc : List RVal) (w : List Char)
    (hw : 1 < w.length) (rest rem : List Char) (g : Bool)
    (hch : chomp_greediness rest = (g, rem)) :
    parseLoop (fuel + 1) ('+' :: rest) none (acc ++ [.word w]) =
      parseLoop fuel rem none
        (acc ++ [.word w.dropLast, .oneOrMore [.word [w.getLastD ' ']] g]) := by
  simp [parseLoop, untilMatches, hch, decorate_concat_word acc w hw]

/-- One parser-loop iteration at `?` after a chain ending in a
multi-character literal. -/
theorem parseLoop_optional_step (fuel : Nat) (acc : List RVal) (w : List Char)
    (hw : 1 < w.length) (rest : List Char) :
    parseLoop (fuel + 1) ('?' :: rest) none (acc ++ [.word w]) =
      parseLoop fuel rest none
        (acc ++ [.word w.dropLast, .optional [.word [w.getLastD ' ']]]) := by
  simp [parseLoop, untilMatches, decorate_concat_word acc w hw]

/-- One parser-loop iteration at `{…}` after a chain ending in a
multi-character literal. -/
theorem parseLoop_range_step (fuel : Nat) (acc : List RVal) (w : List Char)
    (hw : 1 < w.length) (rest rem : List Char) (mn : Nat) (mx : Option Nat)
    (hr : parse_repetition_range_vals ('{' :: rest) = .ok ((mn, mx), rem)) :
    parseLoop (fuel + 1) ('{' :: rest) none (acc ++ [.word w]) =
      parseLoop fuel rem none
        (acc ++ [.word w.dropLast, .repetitionRange mn mx [.word [w.getLastD ' ']]]) := by
  simp [parseLoop, untilMatches, hr, decorate_concat_word acc w hw]

/-- The parser loop returns its chain at the end of input. -/
theorem parseLoop_nil (fuel : Nat) (u : Option Char) (acc : List RVal) :
    parseLoop (fuel + 1) [] u acc = .ok (acc, []) := rfl

/-- C5: for every pattern in which a quantifier (`*`, `+`, `?`, or
`{…}`) immediately follows a multi-character literal run, the parser
splits off the final character of the run into its own
single-character literal node, applies the quantifier to that node
only, and leaves the preceding characters as a separate literal node
before it; in particular `abc*` parses as `ab` followed by `c*`, not
`(abc)*`. -/
theorem C5_split_last_char (w : List Char) (hw2 : 2 ≤ w.length)
    (hp : ∀ c ∈ w, is_special_char c = false) :
    (∀ (fuel : Nat) (acc : List RVal) (rest rem : List Char) (g : Bool),
      chomp_greediness rest = (g, rem) →
      parseLoop (fuel + 2) (w ++ '*' :: rest) none acc =
        parseLoop fuel rem none
          (acc ++ [.word w.dropLast, .zeroOrMore [.word [w.getLastD ' ']] g])) ∧
    (∀ (fuel : Nat) (acc : List RVal) (rest rem : List Char) (g : Bool),
      chomp_greediness rest = (g, rem) →
      parseLoop (fuel + 2) (w ++ '+' :: rest) none acc =
        parseLoop fuel rem none
          (acc ++ [.word w.dropLast, .oneOrMore [.word [w.getLastD ' ']] g])) ∧
    (∀ (fuel : Nat) (acc : List RVal) (rest : List Char),
      parseLoop (fuel + 2) (w ++ '?' :: rest) none acc =
        parseLoop fuel rest none
          (acc ++ [.word w.dropLast, .optional [.word [w.getLastD ' ']]])) ∧
    (∀ (fuel : Nat) (acc : List RVal) (rest rem : List Char) (mn : Nat) (mx : Option Nat),
      parse_repetition_range_vals ('{' :: rest) = .ok ((mn, mx), rem) →
      parseLoop (fuel + 2) (w ++ '{' :: rest) none acc =
        parseLoop fuel rem none
          (acc ++ [.word w.dropLast, .repetitionRange mn mx [.word [w.getLastD ' ']]])) ∧
    parse_str (w ++ ['*']) =
      .ok [.word w.dropLast, .zeroOrMore [.word [w.getLastD ' ']] true] := by
  have hw : w ≠ [] := by intro h; rw [h] at hw2; simp at hw2
  have hw1 : 1 < w.length := hw2
  refine ⟨?_, ?_, ?_, ?_, ?_⟩
  · intro fuel acc rest rem g hch
    rw [parseLoop_word_step (fuel + 1) w hw hp '*' (by decide) (by decide) rest acc,
      parseLoop_star_step fuel acc w hw1 rest rem g hch]
  · intro fuel acc rest rem g hch
    rw [parseLoop_word_step (fuel + 1) w hw hp '+' (by decide) (by decide) rest acc,
      parseLoop_plus_step fuel acc w hw1 rest rem g hch]
  · intro fuel acc rest
    rw [parseLoop_word_step (fuel + 1) w hw hp '?' (by decide) (by decide) rest acc,
      parseLoop_optional_step fuel acc w hw1 rest]
  · intro fuel acc rest rem mn mx hr
    rw [parseLoop_word_step (fuel + 1) w hw hp '{' (by decide) (by decide) rest acc,
      parseLoop_range_step fuel acc w hw1 rest rem mn mx hr]
  · show
      (match parseLoop (2 * (w ++ ['*']).length + 8) (w ++ ['*']) none [] with
        | .ok (chain, _) => PRes.ok chain
        | .err e => .err e
        | .panicked => .panicked
        | .outOfFuel => .outOfFuel) =
      .ok [.word w.dropLast, .zeroOrMore [.word [w.getLastD ' ']] true]
    rw [show 2 * (w ++ ['*']).length + 8 = ((2 * w.length + 7 + 1) + 1) + 1 from by
      simp [List.length_append]; omega]
    rw [show (w ++ ['*'] : List Char) = w ++ '*' :: [] from rfl]
    rw [parseLoop_word_step ((2 * w.length + 7 + 1) + 1) w hw hp '*' (by decide) (by decide)
        [] [],
      parseLoop_star_step (2 * w.length + 7 + 1) [] w hw1 [] [] true rfl]
    rw [parseLoop_nil]
    simp

/-- Witness for `C5_split_last_char` on the pattern `abc*`. -/
theorem C5_split_last_char_witness :
    parse_str ("abc*".toList) =
      .ok [.word (['a', 'b', 'c'] : List Char).dropLast,
        .zeroOrMore [.word [(['a', 'b', 'c'] : List Char).getLastD ' ']] true] :=
  (C5_split_last_char ['a', 'b', 'c'] (by decide) (by decide)).2.2.2.2

/-- An ASCII character encodes to its single code-point byte. -/
theorem utf8Bytes_ascii (c : Char) (h : c.toNat < 128) : utf8Bytes c = [c.toNat] := by
  simp [utf8Bytes, h]

/-- Every character encodes to at least one byte. -/
theorem utf8Bytes_length_pos (c : Char) : 0 < (utf8Bytes c).length := by
  simp only [utf8Bytes]
  split_ifs <;> simp

/-- On ASCII-only strings the byte length equals the character
count, so the executor's byte cursor coincides with character
indices (as used by the `Set` node's `chars().nth(cur)`). -/
theorem strBytes_ascii_length (inp : List Char) (h : ∀ c ∈ inp, c.toNat < 128) :
    (strBytes inp).length = inp.length := by
  induction inp with
  | nil => rfl
  | cons c cs ih =>
    simp only [strBytes, List.length_append, List.length_cons]
    rw [utf8Bytes_ascii c (h c (by simp)), ih (fun x hx => h x (by simp [hx]))]
    simp only [List.length_singleton]
    omega

/-- A non-empty string has non-empty bytes. -/
theorem strBytes_length_pos (w : List Char) (hw : w ≠ []) : 0 < (strBytes w).length := by
  cases w with
  | nil => cases hw rfl
  | cons c cs =>
    simp only [strBytes, List.length_append]
    have := utf8Bytes_length_pos c
    omega

/-- On ASCII-only strings every offset up to the length is a
character boundary. -/
theorem ascii_isBoundary (inp : List Char) (h : ∀ c ∈ inp, c.toNat < 128) :
    ∀ i : Nat, i ≤ inp.length → isBoundary inp i = true := by
  induction inp with
  | nil =>
    intro i hi
    simp only [List.length_nil, Nat.le_zero] at hi
    rw [hi]
    rfl
  | cons c cs ih =>
    intro i hi
    cases i with
    | zero => rfl
    | succ j =>
      have hc : (utf8Bytes c).length = 1 := by rw [utf8Bytes_ascii c (h c (by simp))]; rfl
      simp only [isBoundary, hc]
      rw [if_neg (by omega)]
      have : j + 1 - 1 = j := by omega
      rw [this]
      exact ih (fun x hx => h x (by simp [hx])) j (by simp at hi; omega)

/-- On ASCII-only input, no probe of the `find_word` loop slices at a
non-boundary: the loop never panics (for a non-empty needle). -/
theorem find_word_go_ascii (inp w : List Char) (canMove : Bool)
    (ha : ∀ c ∈ inp, c.toNat < 128) (hw : w ≠ []) :
    ∀ (steps cur : Nat), find_word_go inp (strBytes w) canMove cur steps ≠ .panicked := by
  have hlen : (strBytes inp).length = inp.length := strBytes_ascii_length inp ha
  have hwpos : 0 < (strBytes w).length := strBytes_length_pos w hw
  intro steps
  induction steps with
  | zero => intro cur; simp [find_word_go]
  | succ steps ih =>
    intro cur
    simp only [find_word_go]
    by_cases h1 : cur + (strBytes w).length > (strBytes inp).length
    · simp [h1]
    · have hb1 : isBoundary inp cur = true := ascii_isBoundary inp ha cur (by omega)
      have hb2 : isBoundary inp (cur + (strBytes w).length) = true :=
        ascii_isBoundary inp ha _ (by omega)
      have h4 : ¬ (cur + (strBytes w).length = 0) := by omega
      by_cases h2 : ((strBytes inp).drop cur).take (strBytes w).length = strBytes w
      · simp [h1, hb1, hb2, h2, h4]
      · by_cases h3 : canMove = true
        · simp only [h3] at ih
          simp only [h1, if_false, hb1, hb2, Bool.and_self, Bool.not_true, h2, h3,
            Bool.false_eq_true, if_false]
          exact ih (cur + 1)
        · have h3f : canMove = false := by simpa using h3
          simp [h1, hb1, hb2, h2, h3f]

/-- C10 amended: literal-word matching slices the input at byte
offsets that are character boundaries only when the input is
ASCII-only; on such inputs `find_word` never panics and the byte
cursor coincides with the character index used by class matching's
`chars().nth(cur)`.  On input containing multi-byte characters a probe
can fall inside a character's encoding and the executor panics (see
the counterexample), and the byte cursor and the character index
disagree. -/
theorem C10_amended :
    (∀ inp : List Char, (∀ c ∈ inp, c.toNat < 128) → (strBytes inp).length = inp.length) ∧
    (∀ (inp w : List Char) (cur : Nat) (canMove : Bool),
      (∀ c ∈ inp, c.toNat < 128) → w ≠ [] →
      find_word inp (strBytes w) cur canMove ≠ .panicked) := by
  refine ⟨strBytes_ascii_length, ?_⟩
  intro inp w cur canMove ha hw
  exact find_word_go_ascii inp w canMove ha hw _ cur

/-- Witness for `C10_amended` on ASCII input `ab` and needle `b`. -/
theorem C10_amended_witness :
    (strBytes ("ab".toList)).length = ("ab".toList).length ∧
    find_word ("ab".toList) (strBytes ("b".toList)) 0 true ≠ .panicked :=
  ⟨C10_amended.1 ("ab".toList) (by decide),
   C10_amended.2 ("ab".toList) ("b".toList) 0 true (by decide) (by decide)⟩

end Rustex
